import Mathlib

/-!
# Verification of the `rs_lisp` front end (scanner and parser)

A shallow embedding of `src/lexer.rs` and `src/parser.rs` of the `rs_lisp`
repository, together with theorems settling the specification's claims about
them.

Modelling conventions:

* Rust `String` source text is modelled as its sequence of Unicode scalar
  values (`List Char`); `source.len()` (the UTF-8 *byte* length used by
  `Lexer::is_end`) is `utf8Len`, while `source.chars().nth(i)` (the
  *character* indexing used by `advance`/`peek`) is `List.get? i`.  The
  mismatch between the two is part of the code and is preserved.
* `usize`/`u32` counters are modelled as `Nat` (no realistic input
  approaches their overflow).
* Rust `f64` numeric payloads are modelled as exact rationals; see
  `parseF64`.
* The `while` loops of the lexer are modelled by structurally recursive
  functions over an explicit fuel argument.  Exhausted fuel surfaces as the
  artificial error `ParsingError.fuelExhausted`; the fuel supplied at every
  call site is proved sufficient (`scan_never_fuelExhausted`), so this
  artefact of the embedding is unreachable.
* A Rust `panic!` caused by an out-of-bounds `Vec` index in the parser is
  modelled by the explicit outcome `POut.oob`.
-/

namespace RsLisp

/-- `Token` from `src/lexer.rs` (`OpenParen`, `Symbol`, `CloseParen`,
`Quote`, `Comma`, `String`, `Number`, `End`).  The `f64` payload of `Number`
is modelled as an exact rational; `String` and `End` are renamed
`stringLit` and `endTok` because those names are taken in Lean. -/
inductive Token where
  | openParen
  | symbol (s : String)
  | closeParen
  | quote
  | comma
  | stringLit (s : String)
  | number (n : ℚ)
  | endTok
  deriving DecidableEq, Repr

/-- `ParsingError` from `src/lexer.rs` is a wrapper around a message
`String`; we model the finitely many messages the program builds as an
inductive, keeping the line-number payload of the formatted ones:

* `generic`          = `"Geniric error while parsing"` (`scan_token`);
* `numberError l`    = `format!("{} Error while parsing a number", line)`;
* `stringError l`    = `format!("{} Error while parsing a string", line)`;
* `unmatchedClose`   = `"closing parent without opening it"` (`parse_expression`);
* `malformedAtom t`  = `format!("{:?}", token)` (`parse_atom`);
* `fuelExhausted`    is an artefact of the fuel-based embedding of the
  `while` loops, proved unreachable by `scan_never_fuelExhausted`. -/
inductive ParsingError where
  | generic
  | numberError (line : Nat)
  | stringError (line : Nat)
  | unmatchedClose
  | malformedAtom (t : Token)
  | fuelExhausted
  deriving DecidableEq, Repr

/-- The `Lexer` struct of `src/lexer.rs`: source program, accumulated
tokens, lexeme start index, current index, current line. -/
structure Lexer where
  source : List Char
  tokens : List Token
  start : Nat
  current : Nat
  line : Nat
  deriving DecidableEq, Repr

/-- `Lexer::init`. -/
def Lexer.init (source : List Char) : Lexer :=
  { source := source, tokens := [], start := 0, current := 0, line := 1 }

/-- The UTF-8 byte length of a character sequence: this is what Rust's
`String::len` returns, and hence what `Lexer::is_end` compares against. -/
def utf8Len (s : List Char) : Nat := (s.map Char.utf8Size).sum

/-- `Lexer::is_end`: `self.current >= self.source.len()` — note the *byte*
length on the right but the *character* index on the left. -/
def Lexer.isEnd (l : Lexer) : Bool := utf8Len l.source ≤ l.current

/-- Character at character-index `i`, defaulting to `'\u0000'`: this is
`self.source.chars().nth(i).unwrap_or('\0')`. -/
def peekAt (s : List Char) (i : Nat) : Char := s[i]?.getD (Char.ofNat 0)

/-- `Lexer::peek`. -/
def Lexer.peek (l : Lexer) : Char := peekAt l.source l.current

/-- `Lexer::peek_next`. -/
def Lexer.peekNext (l : Lexer) : Char := peekAt l.source (l.current + 1)

/-- Append one token to the accumulated list (`self.tokens.push(t)`). -/
def Lexer.push (l : Lexer) (t : Token) : Lexer :=
  { l with tokens := l.tokens ++ [t] }

/-- The lexeme `self.source.chars().skip(self.start).take(self.current -
self.start).collect()` used by `scan_symbol`, `scan_number`, `scan_string`. -/
def Lexer.lexeme (l : Lexer) : List Char :=
  (l.source.drop l.start).take (l.current - l.start)

/-- The `while` loop of `Lexer::scan_symbol`:
`while ([' ', '(', ')', '\n'].iter().all(|&s| s != self.peek())) & (!self.is_end())
 { if self.peek() == '\n' { self.line += 1; } self.current += 1; }`
(the newline increment is kept even though the guard makes it dead code). -/
def scanSymbolLoop : Nat → Lexer → Lexer × Option ParsingError
  | 0, l => (l, some .fuelExhausted)
  | fuel + 1, l =>
    if (([' ', '(', ')', '\n'] : List Char).all (fun s => s != l.peek)) && !l.isEnd then
      scanSymbolLoop fuel
        { l with line := if l.peek = '\n' then l.line + 1 else l.line,
                 current := l.current + 1 }
    else (l, none)

/-- `Lexer::scan_symbol`. -/
def Lexer.scanSymbol (l : Lexer) : Lexer × Option ParsingError :=
  match scanSymbolLoop (utf8Len l.source + 1) l with
  | (l, some e) => (l, some e)
  | (l, none) => (l.push (.symbol ⟨l.lexeme⟩), none)

/-- A `while self.peek().is_ascii_digit() { self.current += 1 }` loop, as
used twice by `Lexer::scan_number`. -/
def digitsLoop : Nat → Lexer → Lexer × Option ParsingError
  | 0, l => (l, some .fuelExhausted)
  | fuel + 1, l =>
    if l.peek.isDigit then digitsLoop fuel { l with current := l.current + 1 }
    else (l, none)

/-- The digit part of a lexeme as a natural number. -/
def digitsVal (s : List Char) : Nat := s.foldl (fun a c => 10 * a + (c.toNat - 48)) 0

/-- Modelled from the Rust standard library: `str::parse::<f64>()` as applied
by `Lexer::scan_number`.  On every lexeme `scan_number` can build — one or
more ASCII digits, optionally followed by `'.'` and one or more ASCII digits
(established by `scanNumber_spec`) — Rust's parse succeeds; its value is
modelled *exactly* as the rational the decimal literal denotes (Rust rounds
to the nearest `f64`; the two agree on every literal this development
evaluates).  Character lists outside that shape are mapped to `none`, which
stands in for Rust's `Err(ParseFloatError)`; such lexemes never occur. -/
def parseF64 (s : List Char) : Option ℚ :=
  let ds := s.takeWhile Char.isDigit
  let rest := s.dropWhile Char.isDigit
  if ds.isEmpty then none
  else
    match rest with
    | [] => some (Rat.divInt (digitsVal ds) 1)
    | '.' :: fs =>
        if fs.isEmpty || !fs.all Char.isDigit then none
        else some (Rat.divInt (digitsVal (ds ++ fs)) ((10 : ℤ) ^ fs.length))
    | _ => none

/-- `Lexer::scan_number`: consume digits, then optionally a dot followed by
at least one digit and more digits, then parse the lexeme, pushing a
`Number` token on success and reporting `numberError` on failure. -/
def Lexer.scanNumber (l : Lexer) : Lexer × Option ParsingError :=
  match digitsLoop (l.source.length + 1) l with
  | (l, some e) => (l, some e)
  | (l, none) =>
    match
      (if l.peek = '.' ∧ l.peekNext.isDigit then
        digitsLoop (l.source.length + 1) { l with current := l.current + 1 }
      else (l, none)) with
    | (l, some e) => (l, some e)
    | (l, none) =>
      match parseF64 l.lexeme with
      | some q => (l.push (.number q), none)
      | none => (l, some (.numberError l.line))

/-- The `while` loop of `Lexer::scan_string`:
`while (self.peek() != '"') & (!self.is_end()) { if self.peek() == '\n'
 { self.line += 1; } self.current += 1; }`. -/
def scanStringLoop : Nat → Lexer → Lexer × Option ParsingError
  | 0, l => (l, some .fuelExhausted)
  | fuel + 1, l =>
    if (l.peek != '"') && !l.isEnd then
      scanStringLoop fuel
        { l with line := if l.peek = '\n' then l.line + 1 else l.line,
                 current := l.current + 1 }
    else (l, none)

/-- `Lexer::scan_string`: scan to the closing quote; error with
`stringError` if the input ends first, otherwise also consume the closing
quote (`self.current += 1`) and push the raw lexeme (quotes included) as a
`String` token. -/
def Lexer.scanString (l : Lexer) : Lexer × Option ParsingError :=
  match scanStringLoop (utf8Len l.source + 1) l with
  | (l, some e) => (l, some e)
  | (l, none) =>
    if l.isEnd then (l, some (.stringError l.line))
    else
      (({ l with current := l.current + 1 }).push
        (.stringLit ⟨({ l with current := l.current + 1 }).lexeme⟩), none)

/-- The `while` loop of `Lexer::skip_comment`:
`while (self.peek() != '\n') & (!self.is_end()) { self.current += 1; }`. -/
def skipCommentLoop : Nat → Lexer → Lexer × Option ParsingError
  | 0, l => (l, some .fuelExhausted)
  | fuel + 1, l =>
    if (l.peek != '\n') && !l.isEnd then
      skipCommentLoop fuel { l with current := l.current + 1 }
    else (l, none)

/-- `Lexer::skip_comment`. -/
def Lexer.skipComment (l : Lexer) : Lexer × Option ParsingError :=
  skipCommentLoop (utf8Len l.source + 1) l

/-- `Lexer::advance`: return the character at `current` (if any) and
increment `current` unconditionally. -/
def Lexer.advance (l : Lexer) : Option Char × Lexer :=
  (l.source[l.current]?, { l with current := l.current + 1 })

/-- `Lexer::scan_token`: `advance` one character (an unavailable character
is the `generic` error) and dispatch on it exactly as the Rust `match`
does. -/
def Lexer.scanToken (l : Lexer) : Lexer × Option ParsingError :=
  match l.advance with
  | (none, l) => (l, some .generic)
  | (some c, l) =>
    if c = '(' then (l.push .openParen, none)
    else if c = ')' then (l.push .closeParen, none)
    else if c = '\'' then (l.push .quote, none)
    else if c = ',' then (l.push .comma, none)
    else if c = '"' then l.scanString
    else if c = ';' then l.skipComment
    else if c.isDigit then l.scanNumber
    else if c = ' ' ∨ c = '\t' ∨ c = '\r' then (l, none)
    else if c = '\n' then ({ l with line := l.line + 1 }, none)
    else l.scanSymbol

/-- The `while !self.is_end()` loop of `Lexer::scan`: reset `start` to
`current`, scan one token, propagate its error. -/
def scanLoop : Nat → Lexer → Lexer × Option ParsingError
  | 0, l => (l, some .fuelExhausted)
  | fuel + 1, l =>
    if !l.isEnd then
      match Lexer.scanToken { l with start := l.current } with
      | (l, some e) => (l, some e)
      | (l, none) => scanLoop fuel l
    else (l, none)

/-- `Lexer::scan`: run the scanning loop, then push the `End` sentinel on
success.  The returned pair is the final state of `self` together with the
`Result<(), ParsingError>` value. -/
def Lexer.scan (l : Lexer) : Lexer × Option ParsingError :=
  match scanLoop (utf8Len l.source + 1) l with
  | (l, some e) => (l, some e)
  | (l, none) => (l.push .endTok, none)

/-- Scan a source string from a fresh `Lexer`, as `run` in `src/main.rs`
does. -/
def scanSource (s : String) : Lexer × Option ParsingError :=
  (Lexer.init s.data).scan

/-- `SExpression` from `src/parser.rs`. -/
inductive SExpression where
  | number (n : ℚ)
  | str (s : String)
  | symbol (s : String)
  | list (xs : List SExpression)

/-- Outcome of a parser routine.  `ok e c` and `err e c` are Rust's
`Ok(e)` / `Err(e)` together with the final `self.cursor` value `c`;
`oob` models the `panic!` raised by an out-of-bounds `self.tokens[self.cursor]`
index; `fuelOut` is the artificial out-of-fuel outcome of the embedding
(never produced at the concrete inputs evaluated below). -/
inductive POut where
  | ok (e : SExpression) (cursor : Nat)
  | err (e : ParsingError) (cursor : Nat)
  | oob
  | fuelOut

/-- `Parser::parse_atom`: map a `String`/`Symbol`/`Number` token at the
cursor to the corresponding atom, any other token to a `malformedAtom`
error.  The cursor is not moved. -/
def parseAtom (tokens : List Token) (cursor : Nat) : POut :=
  match tokens[cursor]? with
  | none => .oob
  | some (.stringLit s) => .ok (.str s) cursor
  | some (.symbol s) => .ok (.symbol s) cursor
  | some (.number n) => .ok (.number n) cursor
  | some t => .err (.malformedAtom t) cursor

mutual

/-- `Parser::parse_expression`: dispatch on the token at the cursor
(open paren → `parse_list`, close paren → `unmatchedClose`, otherwise
`parse_atom`), then increment the cursor once, unconditionally. -/
def parseExpression (tokens : List Token) : Nat → Nat → POut
  | 0, _ => .fuelOut
  | fuel + 1, cursor =>
    match tokens[cursor]? with
    | none => .oob
    | some t =>
      let res :=
        match t with
        | .openParen => parseList tokens fuel (cursor + 1) []
        | .closeParen => .err .unmatchedClose cursor
        | _ => parseAtom tokens cursor
      match res with
      | .ok e c => .ok e (c + 1)
      | .err e c => .err e (c + 1)
      | x => x

/-- The `loop` of `Parser::parse_list` (the opening paren has already been
consumed by passing `cursor + 1` from `parse_expression`, mirroring
`self.cursor += 1` at the top of `parse_list`): stop on a `CloseParen` or
`End` token at the cursor and return the accumulated list, otherwise parse
one expression and push it. -/
def parseList (tokens : List Token) : Nat → Nat → List SExpression → POut
  | 0, _, _ => .fuelOut
  | fuel + 1, cursor, acc =>
    match tokens[cursor]? with
    | none => .oob
    | some t =>
      if t = .closeParen ∨ t = .endTok then .ok (.list acc) cursor
      else
        match parseExpression tokens fuel cursor with
        | .ok e c => parseList tokens fuel c (acc ++ [e])
        | x => x

end

/-- `Parser::parse` on `Parser::init(tokens)`: `parse_expression` from
cursor `0`.  The fuel `2 * tokens.length + 4` bounds the recursion depth:
every two nested calls advance the cursor, which the out-of-bounds check
keeps below `tokens.length`. -/
def parse (tokens : List Token) : POut :=
  parseExpression tokens (2 * tokens.length + 4) 0

/-! ## Basic facts about byte lengths, indexing and newline counts -/

theorem length_le_utf8Len (s : List Char) : s.length ≤ utf8Len s := by
  induction s with
  | nil => simp [utf8Len]
  | cons c cs ih =>
    have := Char.utf8Size_pos c
    simp only [utf8Len, List.map_cons, List.sum_cons, List.length_cons] at *
    omega

theorem utf8Len_eq_length (s : List Char) (h : ∀ c ∈ s, c.utf8Size = 1) :
    utf8Len s = s.length := by
  induction s with
  | nil => rfl
  | cons c cs ih =>
    simp only [utf8Len, List.map_cons, List.sum_cons, List.length_cons] at *
    rw [h c (List.mem_cons_self c cs), ih fun c hc => h c (List.mem_cons_of_mem _ hc)]
    omega

theorem peekAt_cases (s : List Char) (i : Nat) :
    s[i]? = some (peekAt s i) ∨ (s.length ≤ i ∧ peekAt s i = Char.ofNat 0) := by
  unfold peekAt
  match h : s[i]? with
  | some c => simp
  | none => simp [List.getElem?_eq_none_iff.mp h]

theorem getElem?_eq_some_peekAt (s : List Char) (i : Nat) (h : peekAt s i ≠ Char.ofNat 0) :
    s[i]? = some (peekAt s i) := by
  rcases peekAt_cases s i with h' | ⟨_, h'⟩
  · exact h'
  · exact absurd h' h

theorem drop_cons_of_getElem? (s : List Char) (i : Nat) (c : Char) (h : s[i]? = some c) :
    s.drop i = c :: s.drop (i + 1) := by
  obtain ⟨hn, rfl⟩ := List.getElem?_eq_some.mp h
  exact List.drop_eq_getElem_cons hn

theorem count_take_add (s : List Char) (m k : Nat) (a : Char) :
    (s.take (m + k)).count a = (s.take m).count a + ((s.drop m).take k).count a := by
  rw [List.take_add, List.count_append]

theorem count_take_seg (s : List Char) (m k : Nat)
    (h : ∀ c ∈ (s.drop m).take k, c ≠ '\n') :
    (s.take (m + k)).count '\n' = (s.take m).count '\n' := by
  rw [count_take_add]
  rw [List.count_eq_zero.mpr fun hm => h _ hm rfl, Nat.add_zero]

theorem count_take_succ (s : List Char) (m : Nat) (a : Char) :
    (s.take (m + 1)).count a =
      (s.take m).count a + (if s[m]? = some a then 1 else 0) := by
  rw [count_take_add]
  match h : s[m]? with
  | some c =>
    rw [drop_cons_of_getElem? s m c h]
    by_cases hc : c = a <;> simp [hc, List.count_cons]
  | none =>
    rw [List.drop_eq_nil_of_le (List.getElem?_eq_none_iff.mp h)]
    simp

theorem nul_not_digit : (Char.ofNat 0).isDigit = false := rfl

/-! ## Loop characterizations

Each `while` loop of the lexer is proved to terminate without exhausting its
fuel, to leave `source`, `tokens`, `start` (and, except for the string loop,
`line`) unchanged, to move `current` forward, and to consume characters of
the expected class. -/

theorem digitsLoop_spec :
    ∀ (fuel : Nat) (l : Lexer), 0 < fuel → l.source.length < l.current + fuel →
    ∃ n, digitsLoop fuel l = ({ l with current := l.current + n }, none) ∧
      ((l.source.drop l.current).take n).length = n ∧
      (∀ c ∈ (l.source.drop l.current).take n, c.isDigit = true) ∧
      (peekAt l.source (l.current + n)).isDigit = false := by
  intro fuel
  induction fuel with
  | zero => intro l h1 _; omega
  | succ fuel ih =>
    intro l _ h2
    rw [digitsLoop]
    by_cases hd : l.peek.isDigit = true
    · rw [if_pos hd]
      have hpe : l.source[l.current]? = some l.peek := by
        refine getElem?_eq_some_peekAt _ _ fun h0 => ?_
        rw [Lexer.peek, h0, nul_not_digit] at hd
        exact Bool.false_ne_true hd
      have hlt : l.current < l.source.length := (List.getElem?_eq_some.mp hpe).1
      obtain ⟨n, heq, hlen, hdig, hstop⟩ :=
        ih { l with current := l.current + 1 } (by omega) (by simp; omega)
      have hdc : l.source.drop l.current = l.peek :: l.source.drop (l.current + 1) :=
        drop_cons_of_getElem? _ _ _ hpe
      refine ⟨n + 1, ?_, ?_, ?_, ?_⟩
      · have harr : l.current + (n + 1) = l.current + 1 + n := by omega
        rw [harr]
        exact heq
      · rw [hdc, List.take_succ_cons, List.length_cons]
        simpa using hlen
      · rw [hdc, List.take_succ_cons]
        intro c hc
        rcases List.mem_cons.mp hc with rfl | hc
        · exact hd
        · exact hdig c hc
      · have harr : l.current + (n + 1) = l.current + 1 + n := by omega
        rw [harr]
        exact hstop
    · rw [if_neg hd]
      refine ⟨0, rfl, by simp, by simp, ?_⟩
      simpa using Bool.not_eq_true _ ▸ hd

theorem scanSymbolLoop_spec :
    ∀ (fuel : Nat) (l : Lexer), 0 < fuel → utf8Len l.source < l.current + fuel →
    ∃ n, scanSymbolLoop fuel l = ({ l with current := l.current + n }, none) ∧
      ∀ c ∈ (l.source.drop l.current).take n, c ≠ '\n' := by
  intro fuel
  induction fuel with
  | zero => intro l h1 _; omega
  | succ fuel ih =>
    intro l _ h2
    rw [scanSymbolLoop]
    by_cases hg : ((([' ', '(', ')', '\n'] : List Char).all fun s => s != l.peek) && !l.isEnd)
      = true
    · rw [if_pos hg]
      simp only [List.all_cons, List.all_nil, Bool.and_true, Bool.and_eq_true, bne_iff_ne,
        ne_eq, Bool.not_eq_true', Lexer.isEnd, decide_eq_false_iff_not, Nat.not_le] at hg
      obtain ⟨⟨_, _, _, hnl⟩, hcur⟩ := hg
      rw [if_neg fun h => hnl h.symm]
      obtain ⟨n, heq, hseg⟩ :=
        ih { l with line := l.line, current := l.current + 1 } (by omega) (by simp; omega)
      refine ⟨n + 1, ?_, ?_⟩
      · have harr : l.current + (n + 1) = l.current + 1 + n := by omega
        rw [harr]
        exact heq
      · rcases peekAt_cases l.source l.current with hpe | ⟨hlen, _⟩
        · rw [drop_cons_of_getElem? _ _ _ hpe, List.take_succ_cons]
          intro c hc
          rcases List.mem_cons.mp hc with rfl | hc
          · exact fun h => hnl h.symm
          · exact hseg c hc
        · rw [List.drop_eq_nil_of_le hlen]
          simp
    · rw [if_neg hg]
      exact ⟨0, rfl, by simp⟩

theorem skipCommentLoop_spec :
    ∀ (fuel : Nat) (l : Lexer), 0 < fuel → utf8Len l.source < l.current + fuel →
    ∃ n, skipCommentLoop fuel l = ({ l with current := l.current + n }, none) ∧
      ∀ c ∈ (l.source.drop l.current).take n, c ≠ '\n' := by
  intro fuel
  induction fuel with
  | zero => intro l h1 _; omega
  | succ fuel ih =>
    intro l _ h2
    rw [skipCommentLoop]
    by_cases hg : ((l.peek != '\n') && !l.isEnd) = true
    · rw [if_pos hg]
      simp only [Bool.and_eq_true, bne_iff_ne, ne_eq, Bool.not_eq_true', Lexer.isEnd,
        decide_eq_false_iff_not, Nat.not_le] at hg
      obtain ⟨hnl, hcur⟩ := hg
      obtain ⟨n, heq, hseg⟩ := ih { l with current := l.current + 1 } (by omega) (by simp; omega)
      refine ⟨n + 1, ?_, ?_⟩
      · have harr : l.current + (n + 1) = l.current + 1 + n := by omega
        rw [harr]
        exact heq
      · rcases peekAt_cases l.source l.current with hpe | ⟨hlen, _⟩
        · rw [drop_cons_of_getElem? _ _ _ hpe, List.take_succ_cons]
          intro c hc
          rcases List.mem_cons.mp hc with rfl | hc
          · exact hnl
          · exact hseg c hc
        · rw [List.drop_eq_nil_of_le hlen]
          simp
    · rw [if_neg hg]
      exact ⟨0, rfl, by simp⟩

theorem scanStringLoop_spec :
    ∀ (fuel : Nat) (l : Lexer), 0 < fuel → utf8Len l.source < l.current + fuel →
    ∃ n, scanStringLoop fuel l =
        ({ l with line := l.line + ((l.source.drop l.current).take n).count '\n',
                  current := l.current + n }, none) ∧
      (peekAt l.source (l.current + n) = '"' ∨ utf8Len l.source ≤ l.current + n) := by
  intro fuel
  induction fuel with
  | zero => intro l h1 _; omega
  | succ fuel ih =>
    intro l _ h2
    rw [scanStringLoop]
    by_cases hg : ((l.peek != '"') && !l.isEnd) = true
    · rw [if_pos hg]
      simp only [Bool.and_eq_true, bne_iff_ne, ne_eq, Bool.not_eq_true', Lexer.isEnd,
        decide_eq_false_iff_not, Nat.not_le] at hg
      obtain ⟨hq, hcur⟩ := hg
      by_cases hnl : l.peek = '\n'
      · rw [if_pos hnl]
        have hpe : l.source[l.current]? = some (peekAt l.source l.current) := by
          refine getElem?_eq_some_peekAt _ _ fun h0 => ?_
          rw [Lexer.peek] at hnl
          rw [h0] at hnl
          exact absurd hnl (by decide)
        obtain ⟨n, heq, hstop⟩ :=
          ih { l with line := l.line + 1, current := l.current + 1 } (by omega) (by simp; omega)
        have hdc : l.source.drop l.current = '\n' :: l.source.drop (l.current + 1) := by
          rw [drop_cons_of_getElem? _ _ _ hpe]
          rw [Lexer.peek] at hnl
          rw [hnl]
        refine ⟨n + 1, ?_, ?_⟩
        · rw [hdc, List.take_succ_cons, List.count_cons_self]
          have harr1 : l.current + (n + 1) = l.current + 1 + n := by omega
          have harr2 :
              l.line + ((List.take n (List.drop (l.current + 1) l.source)).count '\n' + 1) =
              l.line + 1 + (List.take n (List.drop (l.current + 1) l.source)).count '\n' := by
            omega
          rw [harr1, harr2]
          exact heq
        · have harr1 : l.current + (n + 1) = l.current + 1 + n := by omega
          rw [harr1]
          exact hstop
      · rw [if_neg hnl]
        obtain ⟨n, heq, hstop⟩ :=
          ih { l with line := l.line, current := l.current + 1 } (by omega) (by simp; omega)
        have hcount : ((l.source.drop l.current).take (n + 1)).count '\n' =
            ((l.source.drop (l.current + 1)).take n).count '\n' := by
          rcases peekAt_cases l.source l.current with hpe | ⟨hlen, _⟩
          · rw [drop_cons_of_getElem? _ _ _ hpe, List.take_succ_cons,
              List.count_cons_of_ne (by exact fun h => hnl h.symm)]
          · rw [List.drop_eq_nil_of_le hlen, List.drop_eq_nil_of_le (by omega)]
            simp
        refine ⟨n + 1, ?_, ?_⟩
        · rw [hcount]
          have harr1 : l.current + (n + 1) = l.current + 1 + n := by omega
          rw [harr1]
          exact heq
        · have harr1 : l.current + (n + 1) = l.current + 1 + n := by omega
          rw [harr1]
          exact hstop
    · rw [if_neg hg]
      refine ⟨0, by simp, ?_⟩
      simp only [Bool.and_eq_true, bne_iff_ne, ne_eq, Bool.not_eq_true', Lexer.isEnd,
        decide_eq_false_iff_not, Nat.not_le, not_and, not_not] at hg
      by_cases hq : l.peek = '"'
      · left
        rw [Nat.add_zero]
        exact hq
      · right
        rw [Nat.add_zero]
        exact Nat.le_of_not_lt (hg fun h => absurd h hq)

/-! ## Sub-scanner characterizations

The conjunct `l'.line + count before = l.line + count after` says that the
line counter grows by exactly the number of newline characters the call
consumed (stated additively so that consecutive calls compose by `omega`). -/

theorem isDigit_ne_newline {c : Char} (h : c.isDigit = true) : c ≠ '\n' := by
  intro hc
  rw [hc] at h
  exact absurd h (by decide)

theorem scanSymbol_spec (l : Lexer) :
    ∃ l', l.scanSymbol = (l', none) ∧
      l'.source = l.source ∧
      l.current ≤ l'.current ∧
      (∃ t, l'.tokens = l.tokens ++ [t] ∧ t ≠ Token.endTok) ∧
      l'.line + (l.source.take l.current).count '\n'
        = l.line + (l.source.take l'.current).count '\n' := by
  obtain ⟨n, heq, hseg⟩ :=
    scanSymbolLoop_spec (utf8Len l.source + 1) l (by omega) (by omega)
  simp only [Lexer.scanSymbol, heq, Lexer.push]
  refine ⟨_, rfl, rfl, by simp, ⟨_, rfl, nofun⟩, ?_⟩
  rw [count_take_seg l.source l.current n hseg]

theorem skipComment_spec (l : Lexer) :
    ∃ l', l.skipComment = (l', none) ∧
      l'.source = l.source ∧
      l.current ≤ l'.current ∧
      l'.tokens = l.tokens ∧
      l'.line + (l.source.take l.current).count '\n'
        = l.line + (l.source.take l'.current).count '\n' := by
  obtain ⟨n, heq, hseg⟩ :=
    skipCommentLoop_spec (utf8Len l.source + 1) l (by omega) (by omega)
  rw [Lexer.skipComment, heq]
  refine ⟨_, rfl, rfl, by simp, rfl, ?_⟩
  rw [count_take_seg l.source l.current n hseg]

theorem scanString_spec (l : Lexer) :
    ∃ l' e, l.scanString = (l', e) ∧
      l'.source = l.source ∧
      l.current ≤ l'.current ∧
      (∃ ts, l'.tokens = l.tokens ++ ts ∧ Token.endTok ∉ ts) ∧
      (l'.line + (l.source.take l.current).count '\n'
        = l.line + (l.source.take l'.current).count '\n') ∧
      (e = none ∨ ∃ li, e = some (ParsingError.stringError li)) := by
  obtain ⟨n, heq, hstop⟩ :=
    scanStringLoop_spec (utf8Len l.source + 1) l (by omega) (by omega)
  simp only [Lexer.scanString, heq, Lexer.push]
  have hcnt := count_take_add l.source l.current n '\n'
  by_cases hend : ({ l with
      line := l.line + ((l.source.drop l.current).take n).count '\n',
      current := l.current + n } : Lexer).isEnd = true
  · rw [if_pos hend]
    exact ⟨_, _, rfl, rfl, by simp, ⟨[], by simp, by simp⟩, by simp; omega, .inr ⟨_, rfl⟩⟩
  · rw [if_neg hend]
    simp only [Lexer.isEnd, decide_eq_true_eq, Nat.not_le] at hend
    have hquote : peekAt l.source (l.current + n) = '"' := by
      rcases hstop with h | h
      · exact h
      · omega
    have hq2 : l.source[l.current + n]? = some '"' := by
      have := getElem?_eq_some_peekAt l.source (l.current + n)
        (by rw [hquote]; decide)
      rwa [hquote] at this
    refine ⟨_, none, rfl, rfl, by simp; omega, ⟨[.stringLit _], rfl, by simp⟩, ?_, .inl rfl⟩
    have hsucc := count_take_succ l.source (l.current + n) '\n'
    rw [if_neg (by rw [hq2]; exact fun h => absurd (Option.some.inj h) (by decide))] at hsucc
    simp
    omega

theorem takeWhile_append_cons (p : Char → Bool) (xs : List Char) (y : Char)
    (ys : List Char) (hxs : ∀ x ∈ xs, p x = true) (hy : p y = false) :
    (xs ++ y :: ys).takeWhile p = xs ∧ (xs ++ y :: ys).dropWhile p = y :: ys := by
  induction xs with
  | nil => simp [List.takeWhile_cons, List.dropWhile_cons, hy]
  | cons x xs ih =>
    have hx := hxs x (List.mem_cons_self _ _)
    have ih' := ih fun a ha => hxs a (List.mem_cons_of_mem _ ha)
    simp [List.takeWhile_cons, List.dropWhile_cons, hx, ih'.1, ih'.2]

/-- `parseF64` succeeds on a non-empty all-digit lexeme. -/
theorem parseF64_digits (ds : List Char) (hne : ds ≠ [])
    (hdig : ∀ x ∈ ds, x.isDigit = true) :
    parseF64 ds = some (Rat.divInt (digitsVal ds) 1) := by
  rw [parseF64]
  simp only [List.takeWhile_eq_self_iff.mpr hdig,
    List.dropWhile_eq_nil_iff.mpr fun x hx => hdig x hx]
  rw [if_neg fun h => hne (List.isEmpty_iff.mp h)]

/-- `parseF64` succeeds on a lexeme of digits, a dot, and more digits. -/
theorem parseF64_digits_dot_digits (ds fs : List Char) (hne : ds ≠ []) (hfne : fs ≠ [])
    (hdig : ∀ x ∈ ds, x.isDigit = true) (hfdig : ∀ x ∈ fs, x.isDigit = true) :
    parseF64 (ds ++ '.' :: fs) =
      some (Rat.divInt (digitsVal (ds ++ fs)) ((10 : ℤ) ^ fs.length)) := by
  obtain ⟨htw, hdw⟩ := takeWhile_append_cons Char.isDigit ds '.' fs hdig (by decide)
  rw [parseF64]
  simp only [htw, hdw]
  rw [if_neg fun h => hne (List.isEmpty_iff.mp h)]
  show (if fs.isEmpty || !fs.all Char.isDigit then none else _) = _
  rw [if_neg (by simp [List.isEmpty_iff, hfne, List.all_eq_true.mpr hfdig])]

theorem drop_take_append (s : List Char) (m k : Nat) :
    s.drop m = (s.drop m).take k ++ s.drop (m + k) := by
  conv_lhs => rw [← List.take_append_drop k (s.drop m)]
  rw [List.drop_drop, Nat.add_comm]

theorem scanNumber_spec (l : Lexer) (c : Char)
    (hc : l.source[l.start]? = some c) (hcd : c.isDigit = true)
    (hcur : l.current = l.start + 1) :
    ∃ l', l.scanNumber = (l', none) ∧
      l'.source = l.source ∧
      l.current ≤ l'.current ∧
      (∃ q, l'.tokens = l.tokens ++ [Token.number q]) ∧
      l'.line + (l.source.take l.current).count '\n'
        = l.line + (l.source.take l'.current).count '\n' := by
  obtain ⟨n₁, heq1, hlen1, hdig1, hstop1⟩ :=
    digitsLoop_spec (l.source.length + 1) l (by omega) (by omega)
  simp only [Lexer.scanNumber, heq1, Lexer.peek, Lexer.peekNext]
  obtain ⟨A, hAlen, hAdig, hAsplit⟩ :
      ∃ A : List Char, A.length = n₁ ∧ (∀ x ∈ A, x.isDigit = true) ∧
        l.source.drop l.current = A ++ l.source.drop (l.current + n₁) :=
    ⟨_, hlen1, hdig1, drop_take_append l.source l.current n₁⟩
  have hc1 : (l.source.take (l.current + n₁)).count '\n'
      = (l.source.take l.current).count '\n' :=
    count_take_seg _ _ _ fun x hx => isDigit_ne_newline (hdig1 x hx)
  by_cases hdot : peekAt l.source (l.current + n₁) = '.' ∧
      (peekAt l.source (l.current + n₁ + 1)).isDigit = true
  · obtain ⟨hd1, hd2⟩ := hdot
    rw [if_pos ⟨hd1, hd2⟩]
    obtain ⟨n₂, heq2, hlen2, hdig2, hstop2⟩ :=
      digitsLoop_spec (l.source.length + 1) { l with current := l.current + n₁ + 1 }
        (by omega) (by simp; omega)
    obtain ⟨B, hBlen, hBdig, hBsplit⟩ :
        ∃ B : List Char, B.length = n₂ ∧ (∀ x ∈ B, x.isDigit = true) ∧
          l.source.drop (l.current + n₁ + 1) = B ++ l.source.drop (l.current + n₁ + 1 + n₂) :=
      ⟨_, hlen2, hdig2, drop_take_append l.source (l.current + n₁ + 1) n₂⟩
    have h2stop : (peekAt l.source (l.current + n₁ + 1 + n₂)).isDigit = false := hstop2
    have hn₂ : 1 ≤ n₂ := by
      by_contra h
      have h0 : n₂ = 0 := by omega
      subst h0
      rw [Nat.add_zero] at h2stop
      rw [hd2] at h2stop
      exact absurd h2stop (by decide)
    have hdotchar : l.source[l.current + n₁]? = some '.' := by
      have := getElem?_eq_some_peekAt l.source (l.current + n₁) (by rw [hd1]; decide)
      rwa [hd1] at this
    have hlex : ({ l with current := l.current + n₁ + 1 + n₂ } : Lexer).lexeme
        = (c :: A) ++ '.' :: B := by
      show (l.source.drop l.start).take (l.current + n₁ + 1 + n₂ - l.start) = _
      have harr : l.current + n₁ + 1 + n₂ - l.start = n₁ + n₂ + 2 := by omega
      rw [harr, drop_cons_of_getElem? _ _ _ hc, ← hcur, hAsplit,
        drop_cons_of_getElem? _ _ _ hdotchar, hBsplit]
      have hassoc : (c :: (A ++ '.' :: (B ++ l.source.drop (l.current + n₁ + 1 + n₂)))) =
          ((c :: A) ++ '.' :: B) ++ l.source.drop (l.current + n₁ + 1 + n₂) := by simp
      rw [hassoc, List.take_left' (by simp [hAlen, hBlen]; omega)]
    have hpf := parseF64_digits_dot_digits (c :: A) B (by simp)
      (fun h => by rw [h] at hBlen; simp at hBlen; omega)
      (by
        intro x hx
        rcases List.mem_cons.mp hx with rfl | hx
        · exact hcd
        · exact hAdig x hx)
      hBdig
    simp only [heq2, hlex, hpf]
    have hc2 : (l.source.take (l.current + n₁ + 1)).count '\n'
        = (l.source.take (l.current + n₁)).count '\n' := by
      have hs := count_take_succ l.source (l.current + n₁) '\n'
      rw [if_neg (by rw [hdotchar]; exact fun h => absurd (Option.some.inj h) (by decide))]
        at hs
      simpa using hs
    have hc3 : (l.source.take (l.current + n₁ + 1 + n₂)).count '\n'
        = (l.source.take (l.current + n₁ + 1)).count '\n' := by
      refine count_take_seg _ _ _ fun x hx => isDigit_ne_newline (hdig2 x ?_)
      exact hx
    refine ⟨_, rfl, rfl, by simp [Lexer.push]; omega, ⟨_, rfl⟩, ?_⟩
    show l.line + (l.source.take l.current).count '\n'
        = l.line + (l.source.take (l.current + n₁ + 1 + n₂)).count '\n'
    rw [hc3, hc2, hc1]
  · rw [if_neg hdot]
    have hlex : ({ l with current := l.current + n₁ } : Lexer).lexeme
        = c :: A := by
      show (l.source.drop l.start).take (l.current + n₁ - l.start) = _
      have harr : l.current + n₁ - l.start = n₁ + 1 := by omega
      rw [harr, drop_cons_of_getElem? _ _ _ hc, ← hcur, List.take_succ_cons, hAsplit,
        List.take_left' hAlen]
    have hpf := parseF64_digits (c :: A) (by simp)
      (by
        intro x hx
        rcases List.mem_cons.mp hx with rfl | hx
        · exact hcd
        · exact hAdig x hx)
    simp only [hlex, hpf]
    refine ⟨_, rfl, rfl, by simp [Lexer.push], ⟨_, rfl⟩, ?_⟩
    show l.line + (l.source.take l.current).count '\n'
        = l.line + (l.source.take (l.current + n₁)).count '\n'
    rw [hc1]

theorem count_take_succ_of_ne (s : List Char) (m : Nat) (ch : Char) (hx : s[m]? = some ch)
    (hne : ch ≠ '\n') : (s.take (m + 1)).count '\n' = (s.take m).count '\n' := by
  have hs := count_take_succ s m '\n'
  rw [if_neg (by rw [hx]; exact fun h => hne (Option.some.inj h))] at hs
  simpa using hs

/-- Master characterization of `scan_token`, as called from the `scan` loop
(hence `start = current`): the source is unchanged, the cursor strictly
advances, the appended tokens never include the `End` sentinel, the line
counter grows by exactly the newlines consumed, and the only possible errors
are an unterminated string (which requires a `'"'` in the source) or the
generic no-character error (which requires the cursor to have passed the
character count while still below the byte count). -/
theorem scanToken_spec (l : Lexer) (hstart : l.start = l.current) :
    ∃ l' e, l.scanToken = (l', e) ∧
      l'.source = l.source ∧
      l.current < l'.current ∧
      (∃ ts, l'.tokens = l.tokens ++ ts ∧ Token.endTok ∉ ts) ∧
      (l'.line + (l.source.take l.current).count '\n'
        = l.line + (l.source.take l'.current).count '\n') ∧
      (e = none ∨
        ((∃ li, e = some (ParsingError.stringError li)) ∧ '"' ∈ l.source) ∨
        (e = some ParsingError.generic ∧ l.source.length ≤ l.current)) := by
  simp only [Lexer.scanToken, Lexer.advance]
  rcases hx : l.source[l.current]? with _ | ch
  · simp only [hx]
    have hlen : l.source.length ≤ l.current := List.getElem?_eq_none_iff.mp hx
    refine ⟨_, _, rfl, rfl, Nat.lt_succ_self l.current, ⟨[], by simp, by simp⟩, ?_,
      .inr (.inr ⟨rfl, hlen⟩)⟩
    show l.line + (l.source.take l.current).count '\n'
      = l.line + (l.source.take (l.current + 1)).count '\n'
    rw [List.take_of_length_le hlen, List.take_of_length_le (by omega)]
  · simp only [hx]
    have hmem : ch ∈ l.source := by
      obtain ⟨hn, hg⟩ := List.getElem?_eq_some.mp hx
      exact hg ▸ List.getElem_mem hn
    by_cases h1 : ch = '('
    · subst h1
      rw [if_pos rfl]
      refine ⟨_, none, rfl, rfl, Nat.lt_succ_self l.current, ⟨[.openParen], rfl, by simp⟩, ?_, .inl rfl⟩
      show l.line + (l.source.take l.current).count '\n'
        = l.line + (l.source.take (l.current + 1)).count '\n'
      rw [count_take_succ_of_ne _ _ _ hx (by decide)]
    · rw [if_neg h1]
      by_cases h2 : ch = ')'
      · subst h2
        rw [if_pos rfl]
        refine ⟨_, none, rfl, rfl, Nat.lt_succ_self l.current, ⟨[.closeParen], rfl, by simp⟩, ?_, .inl rfl⟩
        show l.line + (l.source.take l.current).count '\n'
          = l.line + (l.source.take (l.current + 1)).count '\n'
        rw [count_take_succ_of_ne _ _ _ hx (by decide)]
      · rw [if_neg h2]
        by_cases h3 : ch = '\''
        · subst h3
          rw [if_pos rfl]
          refine ⟨_, none, rfl, rfl, Nat.lt_succ_self l.current, ⟨[.quote], rfl, by simp⟩, ?_, .inl rfl⟩
          show l.line + (l.source.take l.current).count '\n'
            = l.line + (l.source.take (l.current + 1)).count '\n'
          rw [count_take_succ_of_ne _ _ _ hx (by decide)]
        · rw [if_neg h3]
          by_cases h4 : ch = ','
          · subst h4
            rw [if_pos rfl]
            refine ⟨_, none, rfl, rfl, Nat.lt_succ_self l.current, ⟨[.comma], rfl, by simp⟩, ?_, .inl rfl⟩
            show l.line + (l.source.take l.current).count '\n'
              = l.line + (l.source.take (l.current + 1)).count '\n'
            rw [count_take_succ_of_ne _ _ _ hx (by decide)]
          · rw [if_neg h4]
            by_cases h5 : ch = '"'
            · subst h5
              rw [if_pos rfl]
              obtain ⟨l₂, e, heq, hsrc, hcur, ⟨ts, htoks, hets⟩, hline, hcls⟩ :=
                scanString_spec { l with current := l.current + 1 }
              have hcur' : l.current + 1 ≤ l₂.current := hcur
              have hline' : l₂.line + (l.source.take (l.current + 1)).count '\n'
                  = l.line + (l.source.take l₂.current).count '\n' := hline
              have hstep := count_take_succ_of_ne _ _ _ hx (by decide)
              refine ⟨l₂, e, heq, hsrc, by omega, ⟨ts, htoks, hets⟩, by omega, ?_⟩
              rcases hcls with h | ⟨li, h⟩
              · exact .inl h
              · exact .inr (.inl ⟨⟨li, h⟩, hmem⟩)
            · rw [if_neg h5]
              by_cases h6 : ch = ';'
              · subst h6
                rw [if_pos rfl]
                obtain ⟨l₂, heq, hsrc, hcur, htoks, hline⟩ :=
                  skipComment_spec { l with current := l.current + 1 }
                have hcur' : l.current + 1 ≤ l₂.current := hcur
                have htoks' : l₂.tokens = l.tokens := htoks
                have hline' : l₂.line + (l.source.take (l.current + 1)).count '\n'
                    = l.line + (l.source.take l₂.current).count '\n' := hline
                have hstep := count_take_succ_of_ne _ _ _ hx (by decide)
                exact ⟨l₂, none, heq, hsrc, by omega, ⟨[], by simp [htoks'], by simp⟩,
                  by omega, .inl rfl⟩
              · rw [if_neg h6]
                by_cases h7 : ch.isDigit = true
                · rw [if_pos h7]
                  obtain ⟨l₂, heq, hsrc, hcur, ⟨q, htoks⟩, hline⟩ :=
                    scanNumber_spec { l with current := l.current + 1 } ch
                      (by show l.source[l.start]? = some ch; rw [hstart]; exact hx) h7
                      (by show l.current + 1 = l.start + 1; rw [hstart])
                  have hcur' : l.current + 1 ≤ l₂.current := hcur
                  have htoks' : l₂.tokens = l.tokens ++ [Token.number q] := htoks
                  have hline' : l₂.line + (l.source.take (l.current + 1)).count '\n'
                      = l.line + (l.source.take l₂.current).count '\n' := hline
                  have hstep := count_take_succ_of_ne _ _ _ hx (isDigit_ne_newline h7)
                  exact ⟨l₂, none, heq, hsrc, by omega, ⟨[Token.number q], htoks', by simp⟩,
                    by omega, .inl rfl⟩
                · rw [if_neg h7]
                  by_cases h8 : ch = ' ' ∨ ch = '\t' ∨ ch = '\r'
                  · rw [if_pos h8]
                    refine ⟨_, none, rfl, rfl, Nat.lt_succ_self l.current,
                      ⟨[], by simp, by simp⟩, ?_, .inl rfl⟩
                    have hne : ch ≠ '\n' := by
                      rcases h8 with rfl | rfl | rfl <;> decide
                    show l.line + (l.source.take l.current).count '\n'
                      = l.line + (l.source.take (l.current + 1)).count '\n'
                    rw [count_take_succ_of_ne _ _ _ hx hne]
                  · rw [if_neg h8]
                    by_cases h9 : ch = '\n'
                    · subst h9
                      rw [if_pos rfl]
                      refine ⟨_, none, rfl, rfl, Nat.lt_succ_self l.current,
                        ⟨[], by simp, by simp⟩, ?_, .inl rfl⟩
                      show (l.line + 1) + (l.source.take l.current).count '\n'
                        = l.line + (l.source.take (l.current + 1)).count '\n'
                      have hs := count_take_succ l.source l.current '\n'
                      rw [if_pos hx] at hs
                      omega
                    · rw [if_neg h9]
                      obtain ⟨l₂, heq, hsrc, hcur, ⟨t, htoks, het⟩, hline⟩ :=
                        scanSymbol_spec { l with current := l.current + 1 }
                      have hcur' : l.current + 1 ≤ l₂.current := hcur
                      have htoks' : l₂.tokens = l.tokens ++ [t] := htoks
                      have hline' : l₂.line + (l.source.take (l.current + 1)).count '\n'
                          = l.line + (l.source.take l₂.current).count '\n' := hline
                      have hstep := count_take_succ_of_ne _ _ _ hx h9
                      exact ⟨l₂, none, heq, hsrc, by omega,
                        ⟨[t], htoks', by simpa using fun h => het h.symm⟩, by omega, .inl rfl⟩

/-- Characterization of the `scan` loop: tokens only grow, never by an
`End` sentinel; the line counter counts consumed newlines; and the loop
either finishes cleanly at end-of-input, or fails with an unterminated
string (possible only when the source contains `'"'`) or with the generic
no-character error (possible only when the byte length exceeds the
character count, i.e. on non-ASCII input). -/
theorem scanLoop_spec :
    ∀ (fuel : Nat) (l : Lexer), 0 < fuel → utf8Len l.source < l.current + fuel →
    ∃ l' e, scanLoop fuel l = (l', e) ∧
      l'.source = l.source ∧
      (∃ ts, l'.tokens = l.tokens ++ ts ∧ Token.endTok ∉ ts) ∧
      (l'.line + (l.source.take l.current).count '\n'
        = l.line + (l.source.take l'.current).count '\n') ∧
      ((e = none ∧ l'.isEnd = true) ∨
        ((∃ li, e = some (ParsingError.stringError li)) ∧ '"' ∈ l.source) ∨
        (e = some ParsingError.generic ∧ l.source.length < utf8Len l.source)) := by
  intro fuel
  induction fuel with
  | zero => intro l h1 _; omega
  | succ fuel ih =>
    intro l _ h2
    rw [scanLoop]
    by_cases hend : l.isEnd = true
    · rw [if_neg (by rw [hend]; exact fun h => Bool.noConfusion h)]
      exact ⟨l, none, rfl, rfl, ⟨[], by simp, by simp⟩, by omega, .inl ⟨rfl, hend⟩⟩
    · have hf : l.isEnd = false := by
        revert hend
        cases l.isEnd <;> simp
      have hcur0 : l.current < utf8Len l.source := by
        simpa [Lexer.isEnd] using hf
      rw [if_pos (by rw [hf]; rfl)]
      obtain ⟨l₂, e, heq, hsrc, hcur, ⟨ts, htoks, hets⟩, hline, hcls⟩ :=
        scanToken_spec { l with start := l.current } rfl
      have hsrc' : l₂.source = l.source := hsrc
      have hcur' : l.current < l₂.current := hcur
      have htoks' : l₂.tokens = l.tokens ++ ts := htoks
      have hline' : l₂.line + (l.source.take l.current).count '\n'
          = l.line + (l.source.take l₂.current).count '\n' := hline
      simp only [heq]
      rcases e with _ | err
      · obtain ⟨l₃, e₃, heq₃, hsrc₃, ⟨ts₃, htoks₃, hets₃⟩, hline₃, hcls₃⟩ :=
          ih l₂ (by omega) (by rw [hsrc']; omega)
        rw [hsrc'] at hsrc₃ hline₃ hcls₃
        refine ⟨l₃, e₃, heq₃, hsrc₃, ⟨ts ++ ts₃, ?_, by simp [hets, hets₃]⟩, by omega, ?_⟩
        · rw [htoks₃, htoks', List.append_assoc]
        · rcases hcls₃ with h | h | h
          · exact .inl h
          · exact .inr (.inl h)
          · exact .inr (.inr h)
      · refine ⟨l₂, some err, rfl, hsrc', ⟨ts, htoks', hets⟩, by omega, ?_⟩
        rcases hcls with h | ⟨h, hq⟩ | ⟨h, hlen⟩
        · exact absurd h (by simp)
        · exact .inr (.inl ⟨by
            obtain ⟨li, hli⟩ := h
            exact ⟨li, by simpa using hli⟩, hq⟩)
        · refine .inr (.inr ⟨by simpa using h, ?_⟩)
          have hlen' : l.source.length ≤ l.current := hlen
          omega

/-- Full characterization of `Lexer::scan`. -/
theorem scan_spec (l : Lexer) :
    ∃ l' e, l.scan = (l', e) ∧
      l'.source = l.source ∧
      (l'.line + (l.source.take l.current).count '\n'
        = l.line + (l.source.take l'.current).count '\n') ∧
      ((e = none ∧
          (∃ ts, l'.tokens = l.tokens ++ ts ++ [Token.endTok] ∧ Token.endTok ∉ ts) ∧
          utf8Len l.source ≤ l'.current) ∨
        ((∃ ts, l'.tokens = l.tokens ++ ts ∧ Token.endTok ∉ ts) ∧
          (((∃ li, e = some (ParsingError.stringError li)) ∧ '"' ∈ l.source) ∨
            (e = some ParsingError.generic ∧ l.source.length < utf8Len l.source)))) := by
  obtain ⟨l₂, e, heq, hsrc, ⟨ts, htoks, hets⟩, hline, hcls⟩ :=
    scanLoop_spec (utf8Len l.source + 1) l (by omega) (by omega)
  rw [Lexer.scan]
  simp only [heq]
  rcases e with _ | err
  · rcases hcls with ⟨_, hend⟩ | ⟨⟨li, hli⟩, _⟩ | ⟨hg, _⟩
    · refine ⟨l₂.push .endTok, none, rfl, hsrc, by simpa [Lexer.push] using hline, .inl
        ⟨rfl, ⟨ts, by simp [Lexer.push, htoks], hets⟩, ?_⟩⟩
      have : utf8Len l₂.source ≤ l₂.current := by simpa [Lexer.isEnd] using hend
      rw [hsrc] at this
      exact this
    · exact absurd hli (by simp)
    · exact absurd hg (by simp)
  · refine ⟨l₂, some err, rfl, hsrc, hline, .inr ⟨⟨ts, htoks, hets⟩, ?_⟩⟩
    rcases hcls with ⟨h, _⟩ | h | h
    · exact absurd h (by simp)
    · exact .inl h
    · exact .inr h

/-! ## Character-class facts for the restricted alphabet of claim C4 -/

theorem utf8Size_one_of_toNat_le (c : Char) (h : c.val.toNat ≤ 127) : c.utf8Size = 1 := by
  simp only [Char.utf8Size]
  rw [if_pos (show c.val ≤ UInt32.ofNatCore 127 (by decide) from UInt32.le_def.mpr h)]

theorem isDigit_utf8Size_one (c : Char) (h : c.isDigit = true) : c.utf8Size = 1 := by
  refine utf8Size_one_of_toNat_le c ?_
  have h2 : c.val ≤ 57 := by
    unfold Char.isDigit at h
    exact decide_eq_true_eq.mp ((Bool.and_eq_true _ _).mp h).2
  have h3 : c.val.toNat ≤ 57 := UInt32.le_def.mp h2
  omega

theorem isAlpha_utf8Size_one (c : Char) (h : c.isAlpha = true) : c.utf8Size = 1 := by
  refine utf8Size_one_of_toNat_le c ?_
  unfold Char.isAlpha Char.isUpper Char.isLower at h
  rcases (Bool.or_eq_true _ _).mp h with h' | h'
  · have h2 : c.val ≤ 90 := decide_eq_true_eq.mp ((Bool.and_eq_true _ _).mp h').2
    have h3 : c.val.toNat ≤ 90 := UInt32.le_def.mp h2
    omega
  · have h2 : c.val ≤ 122 := decide_eq_true_eq.mp ((Bool.and_eq_true _ _).mp h').2
    have h3 : c.val.toNat ≤ 122 := UInt32.le_def.mp h2
    omega

/-- The character class named by claim C4: parentheses, ASCII digits, ASCII
letters, and whitespace. -/
def c4Alphabet (c : Char) : Bool :=
  c = '(' || c = ')' || c.isDigit || c.isAlpha || c = ' ' || c = '\t' || c = '\r' || c = '\n'

theorem c4Alphabet_utf8Size_one (c : Char) (h : c4Alphabet c = true) : c.utf8Size = 1 := by
  unfold c4Alphabet at h
  simp only [Bool.or_eq_true, decide_eq_true_eq] at h
  rcases h with ((((((rfl | rfl) | hd) | ha) | rfl) | rfl) | rfl) | rfl
  · decide
  · decide
  · exact isDigit_utf8Size_one c hd
  · exact isAlpha_utf8Size_one c ha
  · decide
  · decide
  · decide
  · decide

theorem c4Alphabet_no_quote (h : c4Alphabet '"' = true) : False := by
  exact absurd h (by decide)

/-! ## The claims -/

/-- **C1** (code_bug evaluation): scanning the source `"(("` succeeds with
the token sequence `[OpenParen, OpenParen, End]` — a sequence ending in
exactly one `End` sentinel — and parsing that sequence reaches the
out-of-bounds index `tokens[3]` on a length-3 vector, i.e. a Rust `panic!`
(modelled by `POut.oob`), instead of returning `Ok` or `Err`. -/
theorem parse_oob_on_unbalanced_opens :
    (scanSource "((").2 = none ∧
    (scanSource "((").1.tokens = [Token.openParen, Token.openParen, Token.endTok] ∧
    parse ((scanSource "((").1.tokens) = POut.oob :=
  ⟨by decide, by decide, rfl⟩

/-- **C2**: scanning `"(foo"` succeeds with tokens
`[OpenParen, Symbol "foo", End]`, and parsing that token sequence returns
`Ok(List([Symbol("foo")]))` — the end-of-input sentinel closes the list
implicitly instead of failing. -/
theorem scan_parse_implicit_close_foo :
    (scanSource "(foo").2 = none ∧
    (scanSource "(foo").1.tokens = [Token.openParen, Token.symbol "foo", Token.endTok] ∧
    parse ((scanSource "(foo").1.tokens) =
      POut.ok (SExpression.list [SExpression.symbol "foo"]) 3 :=
  ⟨by decide, by decide, rfl⟩

/-- **C3**: scanning `"(+ 1 2.5)"` yields exactly
`[OpenParen, Symbol "+", Number 1, Number 2.5, CloseParen, End]`, and
parsing exactly that token sequence yields
`Ok(List([Symbol "+", Number 1, Number 2.5]))`. -/
theorem scan_parse_roundtrip_example :
    (scanSource "(+ 1 2.5)").2 = none ∧
    (scanSource "(+ 1 2.5)").1.tokens =
      [Token.openParen, Token.symbol "+", Token.number 1, Token.number (5 / 2),
        Token.closeParen, Token.endTok] ∧
    parse [Token.openParen, Token.symbol "+", Token.number 1, Token.number (5 / 2),
        Token.closeParen, Token.endTok] =
      POut.ok (SExpression.list [SExpression.symbol "+", SExpression.number 1,
        SExpression.number (5 / 2)]) 5 := by
  rw [show (1 : ℚ) = Rat.divInt 1 1 by rw [Rat.divInt_eq_div]; norm_num,
    show (5 / 2 : ℚ) = Rat.divInt 25 10 by rw [Rat.divInt_eq_div]; norm_num]
  exact ⟨by decide, by decide, rfl⟩

/-- **C4**: for every source made only of characters of the C4 alphabet
(parentheses — balanced or not —, ASCII digits, ASCII letters, whitespace),
`scan` succeeds and the token sequence contains the `End` sentinel exactly
once, as its last element. -/
theorem scan_alphabet_ok (src : List Char) (h : ∀ c ∈ src, c4Alphabet c = true) :
    ∃ l', (Lexer.init src).scan = (l', none) ∧
      l'.tokens.count Token.endTok = 1 ∧
      l'.tokens.getLast? = some Token.endTok := by
  obtain ⟨l₂, e, heq, hsrc, hline, hcls⟩ := scan_spec (Lexer.init src)
  rcases hcls with ⟨hnone, ⟨ts, htoks, hets⟩, _⟩ | ⟨_, hbad⟩
  · subst hnone
    have htoks' : l₂.tokens = ts ++ [Token.endTok] := by
      have h0 : l₂.tokens = ([] : List Token) ++ ts ++ [Token.endTok] := htoks
      simpa using h0
    refine ⟨l₂, heq, ?_, ?_⟩
    · rw [htoks', List.count_append, List.count_eq_zero.mpr hets]
      rfl
    · rw [htoks', List.getLast?_concat]
  · exfalso
    rcases hbad with ⟨⟨li, _⟩, hq⟩ | ⟨_, hlen⟩
    · have hq' : '"' ∈ src := hq
      exact c4Alphabet_no_quote (h '"' hq')
    · have hlen' : src.length < utf8Len src := hlen
      have := utf8Len_eq_length src fun c hc => c4Alphabet_utf8Size_one c (h c hc)
      omega

/-- Witness for `scan_alphabet_ok` at the concrete source `"(a 1)"`. -/
theorem scan_alphabet_ok_witness :
    ∃ l', (Lexer.init "(a 1)".data).scan = (l', none) ∧
      l'.tokens.count Token.endTok = 1 ∧
      l'.tokens.getLast? = some Token.endTok :=
  scan_alphabet_ok "(a 1)".data (by decide)

/-- **C5** (counterexample): on the two-character source `"é)"` — whose
first character occupies two UTF-8 bytes, so the byte length `3` exceeds
the character count `2` — `scan` *does* return the internal generic
no-character-available error: `advance` runs out of characters while
`is_end` (which compares against the byte length) is still false. -/
theorem scan_generic_error_on_multibyte :
    (scanSource "é)").2 = some ParsingError.generic := by decide

/-- **C5** (amended): for every input string all of whose characters are
single-byte (ASCII) characters, `scan` never returns the internal generic
no-character-available error. -/
theorem scan_ascii_no_generic_error (src : List Char) (h : ∀ c ∈ src, c.utf8Size = 1) :
    ((Lexer.init src).scan).2 ≠ some ParsingError.generic := by
  obtain ⟨l₂, e, heq, hsrc, hline, hcls⟩ := scan_spec (Lexer.init src)
  rw [heq]
  intro hcontra
  simp only at hcontra
  subst hcontra
  rcases hcls with ⟨h1, _⟩ | ⟨_, ⟨⟨li, h1⟩, _⟩ | ⟨_, hlen⟩⟩
  · exact absurd h1 (by simp)
  · exact absurd h1 (by simp)
  · have hlen' : src.length < utf8Len src := hlen
    have := utf8Len_eq_length src h
    omega

/-- Witness for `scan_ascii_no_generic_error` at the concrete source
`"(("`. -/
theorem scan_ascii_no_generic_error_witness :
    ((Lexer.init "((".data).scan).2 ≠ some ParsingError.generic :=
  scan_ascii_no_generic_error "((".data (by decide)

/-- **C6** (counterexample): scanning the source `"(\""` fails, yet the
scanner's accumulated token vector is *not* the empty vector it started
with: it still holds the already-scanned `OpenParen` prefix (which `run` in
`src/main.rs` goes on to print and parse). -/
theorem scan_failure_retains_scanned_tokens :
    (scanSource "(\"").2 ≠ none ∧
    (scanSource "(\"").1.tokens ≠ (Lexer.init "(\"".data).tokens ∧
    (scanSource "(\"").1.tokens = [Token.openParen] := by decide

/-- **C6** (amended): on a failing scan only the error is returned through
the `Result` value; the scanner's token vector retains the already-scanned
prefix — in particular no `End` sentinel is ever appended to it. -/
theorem scan_failure_no_end_sentinel (src : List Char) (l' : Lexer) (e : ParsingError)
    (h : (Lexer.init src).scan = (l', some e)) : Token.endTok ∉ l'.tokens := by
  obtain ⟨l₂, e₂, heq, hsrc, hline, hcls⟩ := scan_spec (Lexer.init src)
  rw [heq] at h
  injection h with h1 h2
  subst h1
  subst h2
  rcases hcls with ⟨h1, _⟩ | ⟨⟨ts, htoks, hets⟩, _⟩
  · exact absurd h1 (by simp)
  · have htoks' : l₂.tokens = ts := by simpa using htoks
    rw [htoks']
    exact hets

/-- Witness for `scan_failure_no_end_sentinel` at the concrete source
`"(\""`. -/
theorem scan_failure_no_end_sentinel_witness :
    Token.endTok ∉ (scanSource "(\"").1.tokens :=
  scan_failure_no_end_sentinel "(\"".data (scanSource "(\"").1
    (ParsingError.stringError 1) (by decide)

/-- **C7**: whenever `scan` succeeds, the final line counter equals `1`
plus the number of newline characters in the source: each sub-scanner
advances the counter exactly once per newline it consumes. -/
theorem scan_line_counts_newlines (src : List Char) (l' : Lexer)
    (h : (Lexer.init src).scan = (l', none)) :
    l'.line = 1 + src.count '\n' := by
  obtain ⟨l₂, e, heq, hsrc, hline, hcls⟩ := scan_spec (Lexer.init src)
  rw [heq] at h
  injection h with h1 h2
  subst h1
  subst h2
  rcases hcls with ⟨_, _, hend⟩ | ⟨_, ⟨⟨li, h1⟩, _⟩ | ⟨h1, _⟩⟩
  · have hline' : l₂.line + (src.take 0).count '\n'
        = 1 + (src.take l₂.current).count '\n' := hline
    have hend' : utf8Len src ≤ l₂.current := hend
    rw [List.take_of_length_le (le_trans (length_le_utf8Len src) hend')] at hline'
    simpa using hline'
  · exact absurd h1 (by simp)
  · exact absurd h1 (by simp)

/-- Witness for `scan_line_counts_newlines` at the concrete source
`"a\nb\n"` (final line counter `3`). -/
theorem scan_line_counts_newlines_witness :
    (scanSource "a\nb\n").1.line = 1 + "a\nb\n".data.count '\n' :=
  scan_line_counts_newlines "a\nb\n".data (scanSource "a\nb\n").1 (by decide)

/-- **C8**: scanning `"\"abc"` — an opening quote never closed — fails with
the unterminated-string error carrying the current line number `1`. -/
theorem scan_unterminated_string_error :
    (scanSource "\"abc").2 = some (ParsingError.stringError 1) := by decide

/-- **C9**: scanning `"3."` yields a `Number 3` token followed by a
separate `Symbol "."` token and the `End` sentinel: the number sub-scanner
consumes the dot only when a digit follows it. -/
theorem scan_trailing_dot_split :
    (scanSource "3.").2 = none ∧
    (scanSource "3.").1.tokens = [Token.number 3, Token.symbol ".", Token.endTok] := by
  rw [show (3 : ℚ) = Rat.divInt 3 1 by rw [Rat.divInt_eq_div]; norm_num]
  exact ⟨by decide, by decide⟩

/-- **C10**: for every input string, `scan` never returns the
malformed-number error: the lexeme consumed by `scan_number` always has the
shape `digit+ ('.' digit+)?`, on which the float parse succeeds. -/
theorem scan_no_number_error (src : List Char) (li : Nat) :
    ((Lexer.init src).scan).2 ≠ some (ParsingError.numberError li) := by
  obtain ⟨l₂, e, heq, hsrc, hline, hcls⟩ := scan_spec (Lexer.init src)
  rw [heq]
  intro hcontra
  simp only at hcontra
  subst hcontra
  rcases hcls with ⟨h1, _⟩ | ⟨_, ⟨⟨li', h1⟩, _⟩ | ⟨h1, _⟩⟩
  · exact absurd h1 (by simp)
  · exact absurd h1 (by simp)
  · exact absurd h1 (by simp)

/-- Witness for `scan_no_number_error` at the concrete source `"9."` and
line `1`. -/
theorem scan_no_number_error_witness :
    ((Lexer.init "9.".data).scan).2 ≠ some (ParsingError.numberError 1) :=
  scan_no_number_error "9.".data 1

/-- Faithfulness of the fuel-based embedding: the artificial
`fuelExhausted` error is unreachable from `scan`, on every input and from
every starting state. -/
theorem scan_never_fuelExhausted (l : Lexer) :
    (l.scan).2 ≠ some ParsingError.fuelExhausted := by
  obtain ⟨l₂, e, heq, hsrc, hline, hcls⟩ := scan_spec l
  rw [heq]
  intro hcontra
  simp only at hcontra
  subst hcontra
  rcases hcls with ⟨h1, _⟩ | ⟨_, ⟨⟨li', h1⟩, _⟩ | ⟨h1, _⟩⟩
  · exact absurd h1 (by simp)
  · exact absurd h1 (by simp)
  · exact absurd h1 (by simp)

end RsLisp
